import Mathlib

/-!
Verification of the pdf2txt reconstruction pipeline (`processPDF` in the
repository's processing script) against its natural-language specification.
JavaScript numbers are modelled as rationals, strings as `String`/`List Char`,
and the Unicode character classes of the source regexes are modelled over the
character ranges exercised by this development (ASCII plus the CJK ranges the
source lists explicitly).
-/

set_option maxRecDepth 100000

namespace Pdf2Txt

attribute [local semireducible] Rat.mul Rat.add Rat.sub Rat.inv

/-- JavaScript whitespace as used by `ch.trim()` and `\s`, modelled over the
ASCII range (the only range exercised here). -/
def isSpaceChar (c : Char) : Bool :=
  c = ' ' || c = '\t' || c = '\n' || c = '\r' || c = '\x0b' || c = '\x0c'

/-- The CJK test from the source regex
`[぀-ヿ㐀-䶿一-鿿豈-﫿가-힯]`. -/
def isCJKChar (c : Char) : Bool :=
  (0x3040 ≤ c.toNat && c.toNat ≤ 0x30FF) ||
  (0x3400 ≤ c.toNat && c.toNat ≤ 0x4DBF) ||
  (0x4E00 ≤ c.toNat && c.toNat ≤ 0x9FFF) ||
  (0xF900 ≤ c.toNat && c.toNat ≤ 0xFAFF) ||
  (0xAC00 ≤ c.toNat && c.toNat ≤ 0xD7AF)

/-- `\p{N}`, modelled over the exercised range (ASCII digits). -/
def isNumberChar (c : Char) : Bool := c.isDigit

/-- `\p{L}`, modelled over the exercised ranges (ASCII letters and the CJK
ranges above, which are Unicode letters). -/
def isLetterChar (c : Char) : Bool := c.isAlpha || isCJKChar c

/-- `[\p{L}\p{N}]`, the character class of the hyphenation-merge regex. -/
def isAlnumChar (c : Char) : Bool := isLetterChar c || isNumberChar c

/-- `[\p{P}\p{S}]`, modelled over the exercised range: in ASCII the
punctuation and symbol categories are exactly the printable non-alphanumeric
non-space characters. -/
def isPunctSymChar (c : Char) : Bool :=
  (0x21 ≤ c.toNat && c.toNat ≤ 0x2F) || (0x3A ≤ c.toNat && c.toNat ≤ 0x40) ||
  (0x5B ≤ c.toNat && c.toNat ≤ 0x60) || (0x7B ≤ c.toNat && c.toNat ≤ 0x7E)

/-- `toLowerCase()`, modelled over the exercised (ASCII) range. -/
def toLowerChar (c : Char) : Char :=
  if 'A' ≤ c ∧ c ≤ 'Z' then Char.ofNat (c.toNat + 32) else c

/-- One extracted text item, as pushed onto `allItems` by the extraction loop
of `processPDF` (`str`, `x`, `y`, `h`, `w`, `page`, `isWhitespace`). -/
structure Fragment where
  str : String
  x : ℚ
  y : ℚ
  h : ℚ
  w : ℚ
  page : ℕ
  isWhitespace : Bool
deriving DecidableEq, Repr

/-- `Math.max` on two numbers (kernel-reducible, unlike the order-theoretic
`max` of the rational order instance). -/
def jsMax (a b : ℚ) : ℚ := if a ≤ b then b else a

/-- `Math.round` (half-up, toward positive infinity). -/
def jsRound (q : ℚ) : ℤ := ⌊q + 1/2⌋

/-- `Math.round(h * 10) / 10`, the rounding used for the height histogram. -/
def roundTenth (q : ℚ) : ℚ := (jsRound (q * 10) : ℚ) / 10

/-- Object-key insertion: a key is recorded once, in first-occurrence order. -/
def insertKeyOnce (ks : List ℚ) (k : ℚ) : List ℚ :=
  if k ∈ ks then ks else ks ++ [k]

/-- The distinct rounded heights of `heightCounts`, in insertion order. -/
def rawHeightKeys (items : List Fragment) : List ℚ :=
  items.foldl (fun ks i => insertKeyOnce ks (roundTenth i.h)) []

/-- A JS object key whose string form is a canonical array index (unsigned
integer below 2^32); `for...in` visits these first, in ascending order. -/
def isIndexKey (k : ℚ) : Bool :=
  k.den = 1 && 0 ≤ k.num && k.num < 4294967296

/-- The keys of `heightCounts` in `for...in` iteration order: array-index
keys ascending, then the remaining keys in insertion order. -/
def heightKeys (items : List Fragment) : List ℚ :=
  List.insertionSort (· ≤ ·) ((rawHeightKeys items).filter isIndexKey) ++
    (rawHeightKeys items).filter (fun k => !isIndexKey k)

/-- `heightCounts[h]`: how many items have rounded height `k`. -/
def heightCount (items : List Fragment) (k : ℚ) : ℕ :=
  items.countP (fun i => decide (roundTenth i.h = k))

/-- One step of the body-height loop: replace the running mode only on a
strictly larger count. -/
def modeStep (count : ℚ → ℕ) (acc : ℚ × ℕ) (k : ℚ) : ℚ × ℕ :=
  if acc.2 < count k then (k, count k) else acc

/-- `bodyHeight`: the loop over `heightCounts` starting from the default
`(12, 0)`. -/
def bodyHeightOf (items : List Fragment) : ℚ :=
  ((heightKeys items).foldl (modeStep (heightCount items)) (12, 0)).1

/-- The comparator of `allItems.sort`: page first, then y, except that two
y values closer than 2 units are compared by x. The sign of the returned
rational plays the role of the JS number. -/
def itemCmp (a b : Fragment) : ℚ :=
  if a.page ≠ b.page then (a.page : ℚ) - (b.page : ℚ)
  else if |a.y - b.y| < 2 then a.x - b.x
  else a.y - b.y

/-- Insert `a` after every earlier element it does not compare before. -/
def insertByCmp (cmp : Fragment → Fragment → ℚ) (a : Fragment) :
    List Fragment → List Fragment
  | [] => [a]
  | b :: l => if cmp a b < 0 then a :: b :: l else b :: insertByCmp cmp a l

/-- `Array.prototype.sort` modelled as a stable insertion sort.  ECMAScript
pins the result down only for consistent comparators; the epsilon rule of
`itemCmp` is not transitive, so for it any deterministic stable model is one
of the permitted behaviours. -/
def sortByCmp (cmp : Fragment → Fragment → ℚ) (l : List Fragment) : List Fragment :=
  l.foldl (fun acc a => insertByCmp cmp a acc) []

/-- The x comparator used to freeze a finished line. -/
def xCmp (a b : Fragment) : ℚ := a.x - b.x

/-- A visual line: anchor y (first-seen fragment), page, and its items. -/
structure Line where
  y : ℚ
  page : ℕ
  items : List Fragment
deriving DecidableEq, Repr

/-- `currentLine.items.sort((a, b) => a.x - b.x)` before the line is pushed. -/
def finishLine (l : Line) : Line := { l with items := sortByCmp xCmp l.items }

/-- `lineTolerance = Math.max(2, bodyHeight * 0.25)`. -/
def lineToleranceOf (bh : ℚ) : ℚ := jsMax 2 (bh * (1/4))

/-- The grouping sweep: extend the current line while the next item shares
its page and lies within `tol` of the anchor, else flush and reseed. -/
def groupAux (tol : ℚ) : Line → List Fragment → List Line
  | cur, [] => [finishLine cur]
  | cur, it :: rest =>
    if it.page = cur.page ∧ |it.y - cur.y| < tol then
      groupAux tol { cur with items := cur.items ++ [it] } rest
    else
      finishLine cur :: groupAux tol { y := it.y, page := it.page, items := [it] } rest

/-- Group sorted items into visual lines. -/
def groupLines (tol : ℚ) : List Fragment → List Line
  | [] => []
  | f :: rest => groupAux tol { y := f.y, page := f.page, items := [f] } rest

/-- The Reading-Order Sequencer: sort all items, then group them into lines
with the dynamic tolerance derived from the body height. -/
def linesOf (items : List Fragment) : List Line :=
  groupLines (lineToleranceOf (bodyHeightOf items)) (sortByCmp itemCmp items)

/-- `getFirstChar`: the first character whose `trim()` is truthy. -/
def firstNonSpace (l : List Char) : Option Char := (l.dropWhile isSpaceChar).head?

/-- `getLastChar`: the last character whose `trim()` is truthy. -/
def lastNonSpace (l : List Char) : Option Char := firstNonSpace l.reverse

/-- `shouldInsertSpace`: suppress the space only between two CJK characters;
a missing boundary character (empty string) means a space is inserted. -/
def shouldInsertSpace (prev next : Option Char) : Bool :=
  match prev, next with
  | some p, some n => !(isCJKChar p && isCJKChar n)
  | _, _ => true

/-- `items.filter(i => i.str && (i.str.trim() || i.isWhitespace))`. -/
def cleanedItems (items : List Fragment) : List Fragment :=
  items.filter fun i =>
    !i.str.data.isEmpty && (!(i.str.data.all isSpaceChar) || i.isWhitespace)

/-- The non-whitespace fragments of a cleaned line. -/
def nonSpaceItems (items : List Fragment) : List Fragment :=
  (cleanedItems items).filter (fun i => !i.isWhitespace)

/-- `totalWidth` over non-whitespace fragments with non-empty text. -/
def totalWidthOf (l : List Fragment) : ℚ :=
  l.foldl (fun acc i => if 0 < i.str.length then acc + i.w else acc) 0

/-- `totalChars` over non-whitespace fragments with non-empty text. -/
def totalCharsOf (l : List Fragment) : ℕ :=
  l.foldl (fun acc i => if 0 < i.str.length then acc + i.str.length else acc) 0

/-- `avgCharWidth = totalChars ? totalWidth / totalChars : 0`. -/
def avgCharWidthOf (items : List Fragment) : ℚ :=
  let ns := nonSpaceItems items
  if totalCharsOf ns = 0 then 0 else totalWidthOf ns / (totalCharsOf ns : ℚ)

/-- `baseThreshold = avgCharWidth ? avgCharWidth * 0.6 : 2`. -/
def baseThresholdOf (items : List Fragment) : ℚ :=
  if avgCharWidthOf items = 0 then 2 else avgCharWidthOf items * (3/5)

/-- The positive horizontal gaps between adjacent non-whitespace fragments. -/
def gapList : List Fragment → List ℚ
  | a :: b :: rest =>
    (if 0 < b.x - (a.x + a.w) then [b.x - (a.x + a.w)] else []) ++ gapList (b :: rest)
  | _ => []

/-- The gap list sorted ascending (`sort((a, b) => a - b)`). -/
def sortedGapsOf (items : List Fragment) : List ℚ :=
  List.insertionSort (· ≤ ·) (gapList (nonSpaceItems items))

/-- `medianGap = sortedGaps.length ? sortedGaps[floor(length / 2)] : 0`. -/
def medianGapOf (items : List Fragment) : ℚ :=
  let sg := sortedGapsOf items
  if sg.length = 0 then 0 else sg.getD (sg.length / 2) 0

/-- `p90Gap = sortedGaps.length ? sortedGaps[floor(length * 0.9)] : 0`. -/
def p90GapOf (items : List Fragment) : ℚ :=
  let sg := sortedGapsOf items
  if sg.length = 0 then 0 else sg.getD ((9 * sg.length) / 10) 0

/-- The adaptive word-gap threshold; the median/p90 refinements are reached
only when at least three positive gap samples exist. -/
def wordGapThresholdOf (items : List Fragment) : ℚ :=
  if 3 ≤ (sortedGapsOf items).length then
    if medianGapOf items * (8/5) < p90GapOf items then
      jsMax (baseThresholdOf items) ((medianGapOf items + p90GapOf items) / 2)
    else if 0 < medianGapOf items then
      jsMax (baseThresholdOf items) (medianGapOf items * (7/5))
    else baseThresholdOf items
  else baseThresholdOf items

/-- `result.endsWith(" ")`. -/
def endsWithSpace (l : List Char) : Bool :=
  match l.getLast? with
  | some c => c = ' '
  | none => false

/-- One fragment step of `buildWithThreshold`: state is the accumulated text
and the previous non-whitespace fragment (cleared by whitespace markers). -/
def buildStep (threshold : ℚ) (st : List Char × Option Fragment) (item : Fragment) :
    List Char × Option Fragment :=
  if item.isWhitespace then
    (if endsWithSpace st.1 then st.1 else st.1 ++ [' '], none)
  else
    let withGap :=
      match st.2 with
      | some prev =>
        if threshold < item.x - (prev.x + prev.w) ∧ endsWithSpace st.1 = false then
          if shouldInsertSpace (lastNonSpace st.1) (firstNonSpace item.str.data) then
            st.1 ++ [' ']
          else st.1
        else st.1
      | none => st.1
    (withGap ++ item.str.data, some item)

/-- Space or tab, the class of the final `[ \t]+` collapse. -/
def isSpTab (c : Char) : Bool := c = ' ' || c = '\t'

/-- `replace(/[ \t]+/g, " ")`: collapse each run of spaces/tabs to one space;
the flag records whether we are inside a run. -/
def collapseSpTabAux : Bool → List Char → List Char
  | _, [] => []
  | inRun, c :: rest =>
    if isSpTab c then
      if inRun then collapseSpTabAux true rest else ' ' :: collapseSpTabAux true rest
    else c :: collapseSpTabAux false rest

/-- `trim()` over the modelled whitespace class. -/
def trimChars (l : List Char) : List Char :=
  ((l.dropWhile isSpaceChar).reverse.dropWhile isSpaceChar).reverse

/-- `buildWithThreshold`: emit the cleaned fragments with the given gap
threshold, then collapse space runs and trim. -/
def buildWithThreshold (items : List Fragment) (threshold : ℚ) : List Char :=
  trimChars (collapseSpTabAux false
    (((cleanedItems items).foldl (buildStep threshold) ([], none)).1))

/-- How many non-whitespace fragments are single characters. -/
def singleCharCount (items : List Fragment) : ℕ :=
  (nonSpaceItems items).countP (fun i => decide (i.str.length = 1))

/-- `buildLineText`: build with the adaptive threshold; if the result has no
space, over 60% of fragments are single characters and a positive median gap
exists, rebuild with the looser fallback threshold. -/
def buildLineText (items : List Fragment) : String :=
  if cleanedItems items = [] then "" else
  let line := buildWithThreshold items (wordGapThresholdOf items)
  if (line.any fun c => c = ' ') = false ∧
      (nonSpaceItems items).length * 3 < singleCharCount items * 5 ∧
      0 < medianGapOf items then
    String.mk (buildWithThreshold items
      (jsMax (baseThresholdOf items * (3/5)) (medianGapOf items * (11/10))))
  else String.mk line

/-- `normalizePageMarker`: lower-case, strip punctuation/symbols, replace
each number character by the placeholder `#`, and remove whitespace. -/
def normalizePageMarker (s : String) : String :=
  String.mk ((((s.data.map toLowerChar).filter (fun c => !isPunctSymChar c)).map
    (fun c => if isNumberChar c then '#' else c)).filter (fun c => !isSpaceChar c))

/-- Per-line metadata: the line, its built text and its maximum item height. -/
structure LineMeta where
  line : Line
  lineStr : String
  maxLineHeight : ℚ
deriving DecidableEq, Repr

/-- `Math.max(...line.items.map(i => i.h))` (lines always hold ≥ 1 item). -/
def maxHeightOf (items : List Fragment) : ℚ :=
  match items with
  | [] => 0
  | f :: rest => rest.foldl (fun m i => jsMax m i.h) f.h

/-- The `lineMeta` array: each line with its cached text and max height. -/
def lineMetaOf (items : List Fragment) : List LineMeta :=
  (linesOf items).map fun l => ⟨l, buildLineText l.items, maxHeightOf l.items⟩

/-- A page-marker cluster: the distinct pages it occurs on (a JS `Set`,
insertion-ordered) and the line indices it covers. -/
structure Cluster where
  pages : List ℕ
  indices : List ℕ
deriving DecidableEq, Repr

/-- `cluster.pages.add(page)`. -/
def addPage (ps : List ℕ) (p : ℕ) : List ℕ := if p ∈ ps then ps else ps ++ [p]

/-- Insertion-ordered update of the cluster map at `key`.  The JS key is the
string `normalized + "|" + band + "|" + yBucket`; since `|` is stripped from
normalized text the string key is in bijection with this triple. -/
def updateClusters (key : String × Bool × ℤ) (page : ℕ) (idx : ℕ) :
    List ((String × Bool × ℤ) × Cluster) → List ((String × Bool × ℤ) × Cluster)
  | [] => [(key, ⟨[page], [idx]⟩)]
  | (k, c) :: rest =>
    if k = key then (k, ⟨addPage c.pages page, c.indices ++ [idx]⟩) :: rest
    else (k, c) :: updateClusters key page idx rest

/-- `pageHeights[page]` as an association-list lookup. -/
def lookupHeight (ph : List (ℕ × ℚ)) (p : ℕ) : Option ℚ :=
  match ph.find? (fun e => decide (e.1 = p)) with
  | some e => some e.2
  | none => none

/-- Build `pageMarkerClusters`: for each non-empty line lying in the top or
bottom 10% band of its page with max height below 95% of the body height,
record it under `(normalizedText, band, yBucket)`; the bucket quantizes y by
`Math.max(4, bodyHeight * 0.5)`. -/
def pageMarkerClustersOf (bh : ℚ) (ph : List (ℕ × ℚ)) (metas : List LineMeta) :
    List ((String × Bool × ℤ) × Cluster) :=
  metas.enum.foldl (fun acc e =>
    let idx := e.1
    let m := e.2
    if m.lineStr = "" then acc
    else
      match lookupHeight ph m.line.page with
      | none => acc
      | some phv =>
        if phv = 0 then acc
        else
          let bandSize := phv * (mkRat 1 10)
          if ¬ (m.line.y ≤ bandSize ∨ phv - bandSize ≤ m.line.y) then acc
          else if bh * (mkRat 19 20) ≤ m.maxLineHeight then acc
          else
            let normalized := normalizePageMarker m.lineStr
            if normalized = "" then acc
            else
              let band := decide (m.line.y ≤ bandSize)
              let yBucket := jsRound (m.line.y / jsMax 4 (bh * (mkRat 1 2)))
              updateClusters (normalized, band, yBucket) m.line.page idx acc) []

/-- `minRepeat = Math.ceil(numPages * 0.4)`, as an exact natural ceiling. -/
def minRepeatOf (numPages : ℕ) : ℕ := (2 * numPages + 4) / 5

/-- The indices of lines belonging to clusters recurring on at least
`Math.max(2, minRepeat)` distinct pages. -/
def suppressedIndicesOf (bh : ℚ) (numPages : ℕ) (ph : List (ℕ × ℚ))
    (metas : List LineMeta) : List ℕ :=
  (pageMarkerClustersOf bh ph metas).foldl (fun acc e =>
    if max 2 (minRepeatOf numPages) ≤ e.2.pages.length then acc ++ e.2.indices
    else acc) []

/-- `/^[•●\-]/`. -/
def startsWithBullet (s : String) : Bool :=
  match s.data with
  | c :: _ => c = '•' || c = '●' || c = '-'
  | [] => false

/-- `replace(/^[•●\-]\s*/, "- ")`. -/
def rewriteBullet (s : String) : String :=
  match s.data with
  | _ :: rest => String.mk ('-' :: ' ' :: rest.dropWhile isSpaceChar)
  | [] => s

/-- `/^\d+\./`. -/
def startsWithNumDot (s : String) : Bool :=
  let ds := s.data.takeWhile Char.isDigit
  !ds.isEmpty &&
    (match s.data.drop ds.length with
     | c :: _ => c = '.'
     | [] => false)

/-- `/^(?:[-*•●]|\d+\.)/`, the classifier's list test. -/
def classifierIsList (s : String) : Bool :=
  (match s.data with
   | c :: _ => c = '-' || c = '*' || c = '•' || c = '●'
   | [] => false) || startsWithNumDot s

/-- The mutable state of the markdown-assembly loop. -/
structure MDState where
  md : List String
  lastY : ℚ
  lastPage : ℤ
  recentGap : Option ℚ
  denseRun : ℕ
deriving Repr

/-- One iteration of the markdown-assembly loop over `lineMeta`:
paragraph-gap and dense-run bookkeeping first (it runs even for suppressed
or empty lines), then the empty/suppressed early returns, then heading and
list classification, rule insertion, and the line push. -/
def classifyStep (bh : ℚ) (sup : List ℕ) (st : MDState) (e : ℕ × LineMeta) : MDState :=
  let idx := e.1
  let m := e.2
  let gapOpt : Option ℚ :=
    if st.lastPage = (m.line.page : ℤ) ∧ st.lastY ≠ -1 then some (m.line.y - st.lastY)
    else none
  let md0 := st.md ++ (match gapOpt with
    | some g => if bh * (mkRat 3 2) < g then [""] else []
    | none => [])
  let dr0 : ℕ := match gapOpt with
    | some g => if g < bh * (mkRat 9 10) then st.denseRun + 1 else 0
    | none => 0
  let st1 : MDState := ⟨md0, m.line.y, (m.line.page : ℤ), gapOpt, dr0⟩
  if m.lineStr = "" then st1
  else if idx ∈ sup then st1
  else
    let mark0 : String :=
      if bh * (mkRat 7 5) ≤ m.maxLineHeight then "## "
      else if bh * (mkRat 23 20) ≤ m.maxLineHeight then "### "
      else ""
    let pair :=
      if startsWithBullet m.lineStr then (rewriteBullet m.lineStr, "")
      else if startsWithNumDot m.lineStr then (m.lineStr, "")
      else (m.lineStr, mark0)
    let dr1 := if classifierIsList pair.1 then dr0 + 1 else dr0
    let mdR :=
      if (match gapOpt with | some g => decide (bh * (mkRat 9 5) < g) | none => false) = true ∧
          pair.2 ≠ "" ∧ dr1 < 3 ∧ md0 ≠ [] ∧ md0.getLast? ≠ some "---" then
        (if md0.getLast? ≠ some "" then md0 ++ [""] else md0) ++ ["---", ""]
      else md0
    ⟨mdR ++ [pair.2 ++ pair.1], m.line.y, (m.line.page : ℤ), gapOpt, dr1⟩

/-- The classifier output: the `markdownLines` array after the loop. -/
def markdownLinesOf (numPages : ℕ) (ph : List (ℕ × ℚ)) (items : List Fragment) :
    List String :=
  let bh := bodyHeightOf items
  let metas := lineMetaOf items
  let sup := suppressedIndicesOf bh numPages ph metas
  (metas.enum.foldl (classifyStep bh sup) ⟨[], -1, -1, none, 0⟩).md

/-- Does the text start with a hyphenation break, i.e. a match of
`([\p{L}\p{N}])-\n([\p{L}\p{N}])` at position 0? -/
def startsBreak : List Char → Bool
  | a :: d :: n :: b :: _ => d = '-' && n = '\n' && isAlnumChar a && isAlnumChar b
  | _ => false

/-- `replace(/([\p{L}\p{N}])-\n([\p{L}\p{N}])/gu, "$1$2")`: the scanner
advances past each match (both captured characters included), so matches
never overlap within one pass. -/
def hyphenMerge : List Char → List Char
  | a :: d :: n :: b :: rest =>
    if startsBreak (a :: d :: n :: b :: rest) then a :: b :: hyphenMerge rest
    else a :: hyphenMerge (d :: n :: b :: rest)
  | a :: rest => a :: hyphenMerge rest
  | [] => []

/-- String-level wrapper for the hyphenation merge. -/
def hyphenMergeStr (s : String) : String := String.mk (hyphenMerge s.data)

/-- Some position of the text starts a hyphenation break. -/
def hasBreak : List Char → Bool
  | [] => false
  | a :: t => startsBreak (a :: t) || hasBreak t

/-- Two overlapping hyphenation breaks: a break whose trailing character is
also the leading character of the next break (`x-\ny-\nz`). -/
def hasOverlapBreak : List Char → Bool
  | [] => false
  | a :: t => (startsBreak (a :: t) && startsBreak ((a :: t).drop 3)) || hasOverlapBreak t

/-- `!line.trim()`: the line is empty or whitespace-only. -/
def isBlankStr (s : String) : Bool := s.data.all isSpaceChar

/-- `/^\s*#+\s/`: a heading line. -/
def isHeading (s : String) : Bool :=
  let t := s.data.dropWhile isSpaceChar
  (match t with
   | c :: _ => c = '#'
   | [] => false) &&
  (match t.dropWhile (fun c => c = '#') with
   | c :: _ => isSpaceChar c
   | [] => false)

/-- `/^\s*([-*•●]|\d+\.)\s+/`: the wrap-merge's list-item test. -/
def mergeIsList (s : String) : Bool :=
  let t := s.data.dropWhile isSpaceChar
  ((match t with
    | c :: _ => c = '-' || c = '*' || c = '•' || c = '●'
    | [] => false) &&
    (match t.drop 1 with
     | c :: _ => isSpaceChar c
     | [] => false)) ||
  (let ds := t.takeWhile Char.isDigit
   !ds.isEmpty &&
     (match t.drop ds.length with
      | c :: rest =>
        c = '.' && (match rest with
          | c2 :: _ => isSpaceChar c2
          | [] => false)
      | [] => false))

/-- `/[.!?。！？]$/`: the buffer ends in sentence-final punctuation. -/
def isHardStop (s : String) : Bool :=
  match s.data.getLast? with
  | some c => c = '.' || c = '!' || c = '?' || c = '。' || c = '！' || c = '？'
  | none => false

/-- `/[-–—]$/`. -/
def endsWithDash (s : String) : Bool :=
  match s.data.getLast? with
  | some c => c = '-' || c = '–' || c = '—'
  | none => false

/-- The flush condition of `mergeWrappedLines`, in source order. -/
def shouldFlushLine (buffer current : String) : Bool :=
  isBlankStr buffer || isBlankStr current ||
  isHeading current || isHeading buffer ||
  mergeIsList current || mergeIsList buffer ||
  (isHardStop buffer && !endsWithDash buffer)

/-- `trim()` of a string. -/
def trimStr (s : String) : String := String.mk (trimChars s.data)

/-- The join of the non-flush branch, including the list-continuation case of
the source (CJK-aware joiner and trimmed continuation). -/
def joinWrapped (buffer current : String) : String :=
  if mergeIsList buffer && !mergeIsList current && !isHeading current then
    let joiner :=
      if shouldInsertSpace (lastNonSpace buffer.data) (firstNonSpace current.data) then " "
      else ""
    buffer ++ joiner ++ trimStr current
  else buffer ++ " " ++ current

/-- The loop of `mergeWrappedLines`: flush the buffer or join the current
line into it; at the end the buffer is pushed only if truthy (non-empty). -/
def mergeAux : String → List String → List String
  | buffer, [] => if buffer = "" then [] else [buffer]
  | buffer, current :: rest =>
    if shouldFlushLine buffer current then buffer :: mergeAux current rest
    else mergeAux (joinWrapped buffer current) rest

/-- `mergeWrappedLines` at the line level. -/
def mergeLines : List String → List String
  | [] => []
  | b :: rest => mergeAux b rest

/-- The same loop with the plain single-space join only. -/
def mergeSimpleAux : String → List String → List String
  | buffer, [] => if buffer = "" then [] else [buffer]
  | buffer, current :: rest =>
    if shouldFlushLine buffer current then buffer :: mergeSimpleAux current rest
    else mergeSimpleAux (buffer ++ " " ++ current) rest

/-- `mergeWrappedLines` with the list-continuation branch removed. -/
def mergeSimpleLines : List String → List String
  | [] => []
  | b :: rest => mergeSimpleAux b rest

/-- The buffer value accumulated from a run of input lines. -/
def joinRun : List String → String
  | [] => ""
  | x :: xs => xs.foldl joinWrapped x

/-- The runs of consecutive input lines that the merge loop accumulates into
one buffer each. -/
def runsAux : List String → List String → List (List String)
  | run, [] => [run]
  | run, current :: rest =>
    if shouldFlushLine (joinRun run) current then run :: runsAux [current] rest
    else runsAux (run ++ [current]) rest

/-- The run decomposition of the merge. -/
def mergeRuns : List String → List (List String)
  | [] => []
  | b :: rest => runsAux [b] rest

/-- Rebuild the merge output from the runs (the final run is dropped when its
buffer is the empty string, matching the trailing `if (buffer)` push). -/
def emitRuns : List (List String) → List String
  | [] => []
  | r :: rs =>
    if rs.isEmpty then (if joinRun r = "" then [] else [joinRun r])
    else joinRun r :: emitRuns rs

/-- `text.split("\n")` on character lists. -/
def splitNL : List Char → List (List Char)
  | [] => [[]]
  | c :: rest =>
    match splitNL rest with
    | seg :: segs => if c = '\n' then [] :: seg :: segs else (c :: seg) :: segs
    | [] => [[]]

/-- `array.join("\n")` on character lists. -/
def joinNL : List (List Char) → List Char
  | [] => []
  | [x] => x
  | x :: xs => x ++ '\n' :: joinNL xs

/-- `mergeWrappedLines` at the text level: split, merge, re-join. -/
def mergeWrappedText (l : List Char) : List Char :=
  joinNL ((mergeLines ((splitNL l).map String.mk)).map String.data)

/-- `replace(/\n{3,}/g, "\n\n")`: while streaming, emit at most two newline
characters per maximal newline run; the counter tracks the run position. -/
def collapseNLAux : ℕ → List Char → List Char
  | _, [] => []
  | nlRun, c :: rest =>
    if c = '\n' then
      if 2 ≤ nlRun then collapseNLAux (nlRun + 1) rest
      else '\n' :: collapseNLAux (nlRun + 1) rest
    else c :: collapseNLAux 0 rest

/-- Collapse runs of three or more newlines to exactly two. -/
def collapseNewlines (l : List Char) : List Char := collapseNLAux 0 l

/-- `file.name.replace(/\.[^/.]+$/, "")`: drop a final dot-extension that is
non-empty and contains no slash or dot. -/
def stripExtension (s : String) : String :=
  let rev := s.data.reverse
  let ext := rev.takeWhile (fun c => c ≠ '.')
  match rev.drop ext.length with
  | c :: rest =>
    if c = '.' ∧ ext ≠ [] ∧ ¬ ('/' ∈ ext) then String.mk rest.reverse else s
  | [] => s

/-- Does the text end in two newlines (`endsWith("\n\n")`)? -/
def endsWithTwoNL (l : List Char) : Bool :=
  match l.reverse with
  | a :: b :: _ => a = '\n' && b = '\n'
  | _ => false

/-- The placeholder body for documents with zero extracted fragments. -/
def noTextNotice : String := "[No text detected. This may be an image-only PDF.]"

/-- The attribution footer appended to every non-empty conversion. -/
def footerText : String :=
  "File converted using pdf2txt\nhttps://github.com/SPACESODA/pdf2txt\n\n"

/-- `processPDF` from the point where extraction is done: either the empty
placeholder, or the classifier output pushed through hyphenation merge,
hard-wrap merge, blank-line collapse, and title/footer assembly. -/
def processDoc (fileName : String) (numPages : ℕ) (ph : List (ℕ × ℚ))
    (allItems : List Fragment) : String :=
  if allItems.isEmpty then
    "# " ++ stripExtension fileName ++ "\n\n" ++ noTextNotice
  else
    let md := markdownLinesOf numPages ph allItems
    let raw1 := hyphenMerge (joinNL (md.map String.data))
    let raw2 := mergeWrappedText raw1
    let raw3 := collapseNewlines raw2
    let base := ("# " ++ stripExtension fileName ++ "\n\n").data ++ raw3
    let base2 := if endsWithTwoNL base then base else base ++ "\n\n".data
    String.mk (base2 ++ "---\n\n".data ++ footerText.data)

/-- First mid-page body line of the synthetic ten-page document. -/
def bodyFragA (p : ℕ) : Fragment := ⟨"Alpha beta", 10, 40, 12, 40, p, false⟩

/-- Second mid-page body line of the synthetic ten-page document. -/
def bodyFragB (p : ℕ) : Fragment := ⟨"Gamma delta", 10, 50, 12, 44, p, false⟩

/-- The literal page-index fragment in the bottom 10% band (y = 95 on a page
of height 100), with height 10 < 0.95 × bodyHeight. -/
def numFrag (p : ℕ) : Fragment := ⟨toString p, 50, 95, 10, 5, p, false⟩

/-- The synthetic ten-page document of the page-number suppression scenario:
per page two mid-page body lines and one bottom-band page-index line. -/
def docItems : List Fragment :=
  (List.range 10).flatMap fun i => [bodyFragA (i + 1), bodyFragB (i + 1), numFrag (i + 1)]

/-- All ten pages have height 100. -/
def docHeights : List (ℕ × ℚ) := (List.range 10).map fun i => (i + 1, 100)

/-- Witness fragments for the body-height mode: height 12 occurs twice,
height 10 once. -/
def c2Frags : List Fragment :=
  [⟨"a", 0, 0, 12, 1, 1, false⟩, ⟨"b", 0, 0, 12, 1, 1, false⟩, ⟨"c", 0, 0, 10, 1, 1, false⟩]

/-- Counterexample fragments for the word-gap threshold: exactly two
positive gaps (both 10), so `medianGap = 10 > 0` while the refinement branch
is skipped. -/
def gapFrags : List Fragment :=
  [⟨"ab", 0, 0, 12, 2, 1, false⟩, ⟨"cd", 12, 0, 12, 2, 1, false⟩,
   ⟨"ef", 24, 0, 12, 2, 1, false⟩]

/-- Witness fragments for the word-gap threshold: three positive gaps
`[1, 1, 10]`, a bimodal distribution. -/
def bimodalFrags : List Fragment :=
  [⟨"a", 0, 0, 12, 1, 1, false⟩, ⟨"b", 2, 0, 12, 1, 1, false⟩,
   ⟨"c", 4, 0, 12, 1, 1, false⟩, ⟨"d", 15, 0, 12, 1, 1, false⟩]

/-- Witness fragments for the sequencer invariants: two separated lines. -/
def seqFrags : List Fragment :=
  [⟨"x", 0, 0, 12, 1, 1, false⟩, ⟨"y", 0, 20, 12, 1, 1, false⟩]

/-- Counterexample fragments for the line ordering: the epsilon comparator
chains y = 0, 1.9, 3.8 through x comparisons, and the stable sort emits them
in descending y order. -/
def invFrags : List Fragment :=
  [⟨"b", 2, 19/10, 12, 1, 1, false⟩, ⟨"a", 5, 0, 12, 1, 1, false⟩,
   ⟨"c", 0, 19/5, 12, 1, 1, false⟩]

/-- Witness lines for the hard-wrap merge: a joinable pair followed by a
blank line, a heading, a list item, and a hard-stopped line. -/
def c6Lines : List String := ["seg one", "seg two", "", "# Head", "- item", "tail."]

/-! ## Theorems -/

/-- Once the running count dominates every remaining key, the body-height
loop no longer changes its state. -/
theorem foldl_modeStep_stable (count : ℚ → ℕ) :
    ∀ (ks : List ℚ) (bh : ℚ) (mc : ℕ), (∀ k ∈ ks, count k ≤ mc) →
      ks.foldl (modeStep count) (bh, mc) = (bh, mc)
  | [], _, _, _ => rfl
  | k :: ks, bh, mc, hall => by
    have hk : count k ≤ mc := hall k (List.mem_cons_self k ks)
    have hstep : modeStep count (bh, mc) k = (bh, mc) := by
      simp [modeStep, Nat.not_lt.mpr hk]
    rw [List.foldl_cons, hstep]
    exact foldl_modeStep_stable count ks bh mc fun k' hk' =>
      hall k' (List.mem_cons_of_mem _ hk')

/-- The body-height loop returns the key with the strictly largest count,
for any key order. -/
theorem foldl_modeStep_finds (count : ℚ → ℕ) (k₀ : ℚ) :
    ∀ (ks : List ℚ) (bh : ℚ) (mc : ℕ), k₀ ∈ ks → mc < count k₀ →
      (∀ k ∈ ks, k ≠ k₀ → count k < count k₀) →
      (ks.foldl (modeStep count) (bh, mc)).1 = k₀
  | [], _, _, hmem, _, _ => absurd hmem (List.not_mem_nil k₀)
  | k :: ks, bh, mc, hmem, hmc, hstrict => by
    by_cases hk : k = k₀
    · subst hk
      have hstep : modeStep count (bh, mc) k = (k, count k) := by
        simp [modeStep, hmc]
      rw [List.foldl_cons, hstep,
        foldl_modeStep_stable count ks k (count k) (fun k' hk' => by
          by_cases h' : k' = k
          · exact le_of_eq (congrArg count h')
          · exact le_of_lt (hstrict k' (List.mem_cons_of_mem _ hk') h'))]
    · have hmem' : k₀ ∈ ks := by
        rcases List.mem_cons.mp hmem with h | h
        · exact absurd h.symm hk
        · exact h
      have hklt : count k < count k₀ := hstrict k (List.mem_cons_self k ks) hk
      have hrest : ∀ k' ∈ ks, k' ≠ k₀ → count k' < count k₀ := fun k' h' hne =>
        hstrict k' (List.mem_cons_of_mem _ h') hne
      rw [List.foldl_cons]
      unfold modeStep
      by_cases hcond : mc < count k
      · rw [if_pos hcond]
        exact foldl_modeStep_finds count k₀ ks k (count k) hmem' hklt hrest
      · rw [if_neg hcond]
        exact foldl_modeStep_finds count k₀ ks bh mc hmem' hmc hrest

/-- Keys produced by the insertion fold come from the accumulator or from a
fragment of the list. -/
theorem mem_foldl_insertKeyOnce (f : Fragment → ℚ) :
    ∀ (items : List Fragment) (acc : List ℚ) (k : ℚ),
      k ∈ items.foldl (fun ks i => insertKeyOnce ks (f i)) acc →
      k ∈ acc ∨ ∃ i ∈ items, f i = k
  | [], _, _, h => Or.inl h
  | i :: items, acc, k, h => by
    rcases mem_foldl_insertKeyOnce f items (insertKeyOnce acc (f i)) k h with h' | ⟨j, hj, hjk⟩
    · unfold insertKeyOnce at h'
      by_cases hmem : f i ∈ acc
      · rw [if_pos hmem] at h'
        exact Or.inl h'
      · rw [if_neg hmem] at h'
        rcases List.mem_append.mp h' with h'' | h''
        · exact Or.inl h''
        · exact Or.inr ⟨i, List.mem_cons_self i items, (List.mem_singleton.mp h'').symm⟩
    · exact Or.inr ⟨j, List.mem_cons_of_mem _ hj, hjk⟩

/-- Every histogram key is the rounded height of some fragment. -/
theorem mem_heightKeys_exists (items : List Fragment) (k : ℚ)
    (h : k ∈ heightKeys items) : ∃ i ∈ items, roundTenth i.h = k := by
  unfold heightKeys at h
  have hraw : k ∈ rawHeightKeys items := by
    rcases List.mem_append.mp h with h' | h'
    · exact List.mem_of_mem_filter ((List.perm_insertionSort (· ≤ ·) _).mem_iff.mp h')
    · exact List.mem_of_mem_filter h'
  rcases mem_foldl_insertKeyOnce (fun i => roundTenth i.h) items [] k hraw with hc | hx
  · exact absurd hc (List.not_mem_nil k)
  · exact hx

/-- C2: for every non-empty fragment set whose rounded-height histogram has a
strictly most frequent value, the computed `bodyHeight` equals that value,
whatever the deterministic key order; since the computation is a pure
function of the fragment list, ties also resolve deterministically and
reproducibly, and the default `12` can arise for a non-empty fragment set
only as a genuine histogram key. -/
theorem bodyHeight_strict_mode (items : List Fragment) (h₀ : ℚ)
    (hmem : h₀ ∈ heightKeys items)
    (hstrict : ∀ k ∈ heightKeys items, k ≠ h₀ →
      heightCount items k < heightCount items h₀) :
    bodyHeightOf items = h₀ := by
  have hpos : 0 < heightCount items h₀ := by
    obtain ⟨i, hi, hik⟩ := mem_heightKeys_exists items h₀ hmem
    unfold heightCount
    exact List.countP_pos_iff.mpr ⟨i, hi, decide_eq_true hik⟩
  exact foldl_modeStep_finds (heightCount items) h₀ (heightKeys items) 12 0 hmem hpos hstrict

/-- Witness for C2 at a concrete three-fragment document. -/
theorem bodyHeight_strict_mode_witness :
    (12 : ℚ) ∈ heightKeys c2Frags ∧ bodyHeightOf c2Frags = 12 :=
  ⟨by decide, bodyHeight_strict_mode c2Frags 12 (by decide) (by decide)⟩

/-- Membership through comparator insertion. -/
theorem mem_insertByCmp (cmp : Fragment → Fragment → ℚ) (a x : Fragment) :
    ∀ l : List Fragment, x ∈ insertByCmp cmp a l ↔ x = a ∨ x ∈ l
  | [] => by simp [insertByCmp]
  | b :: l => by
    unfold insertByCmp
    by_cases hc : cmp a b < 0
    · rw [if_pos hc]
      simp only [List.mem_cons]
    · rw [if_neg hc]
      simp only [List.mem_cons, mem_insertByCmp cmp a x l]
      tauto

/-- Membership through the modelled sort. -/
theorem mem_sortByCmp_aux (cmp : Fragment → Fragment → ℚ) (x : Fragment) :
    ∀ (l acc : List Fragment),
      x ∈ l.foldl (fun acc a => insertByCmp cmp a acc) acc ↔ x ∈ acc ∨ x ∈ l
  | [], acc => by simp
  | a :: l, acc => by
    rw [List.foldl_cons, mem_sortByCmp_aux cmp x l (insertByCmp cmp a acc),
      mem_insertByCmp cmp a x acc]
    simp only [List.mem_cons]
    tauto

/-- The modelled sort is a permutation as far as membership is concerned. -/
theorem mem_sortByCmp (cmp : Fragment → Fragment → ℚ) (x : Fragment) (l : List Fragment) :
    x ∈ sortByCmp cmp l ↔ x ∈ l := by
  unfold sortByCmp
  rw [mem_sortByCmp_aux]
  simp

/-- A negative comparison implies page order (the page branch of the
comparator is exact). -/
theorem itemCmp_lt_page {a b : Fragment} (h : itemCmp a b < 0) : a.page ≤ b.page := by
  unfold itemCmp at h
  by_cases hp : a.page ≠ b.page
  · rw [if_pos hp] at h
    have : (a.page : ℚ) < b.page := by linarith
    exact_mod_cast this.le
  · push_neg at hp
    exact hp.le

/-- A non-negative comparison implies the reverse page order. -/
theorem itemCmp_not_lt_page {a b : Fragment} (h : ¬ itemCmp a b < 0) : b.page ≤ a.page := by
  unfold itemCmp at h
  by_cases hp : a.page ≠ b.page
  · rw [if_pos hp] at h
    push_neg at h
    have : (b.page : ℚ) ≤ a.page := by linarith
    exact_mod_cast this
  · push_neg at hp
    exact hp.ge

/-- Inserting with the item comparator preserves page-sortedness. -/
theorem pairwise_insertByCmp (a : Fragment) :
    ∀ {l : List Fragment}, l.Pairwise (fun u v => u.page ≤ v.page) →
      (insertByCmp itemCmp a l).Pairwise (fun u v => u.page ≤ v.page)
  | [], _ => by simp [insertByCmp]
  | b :: l, hp => by
    rcases List.pairwise_cons.mp hp with ⟨hb, hl⟩
    unfold insertByCmp
    by_cases hc : itemCmp a b < 0
    · rw [if_pos hc]
      refine List.pairwise_cons.mpr ⟨?_, hp⟩
      intro x hx
      rcases List.mem_cons.mp hx with h | h
      · exact h ▸ itemCmp_lt_page hc
      · exact le_trans (itemCmp_lt_page hc) (hb x h)
    · rw [if_neg hc]
      refine List.pairwise_cons.mpr ⟨?_, pairwise_insertByCmp a hl⟩
      intro x hx
      rcases (mem_insertByCmp itemCmp a x l).mp hx with h | h
      · exact h ▸ itemCmp_not_lt_page hc
      · exact hb x h

/-- The sorted item list is page-sorted. -/
theorem pairwise_sortByCmp_page (l : List Fragment) :
    (sortByCmp itemCmp l).Pairwise (fun u v => u.page ≤ v.page) := by
  unfold sortByCmp
  suffices h : ∀ (l acc : List Fragment),
      acc.Pairwise (fun u v => u.page ≤ v.page) →
      (l.foldl (fun acc a => insertByCmp itemCmp a acc) acc).Pairwise
        (fun u v => u.page ≤ v.page) from h l [] List.Pairwise.nil
  intro l
  induction l with
  | nil => intro acc h; exact h
  | cons a l ih =>
    intro acc h
    exact ih _ (pairwise_insertByCmp a h)

/-- The grouping sweep always emits at least one line, whose anchor carries
the current line's y and page. -/
theorem groupAux_head (tol : ℚ) :
    ∀ (rest : List Fragment) (cur : Line), ∃ l ls,
      groupAux tol cur rest = l :: ls ∧ l.y = cur.y ∧ l.page = cur.page
  | [], cur => ⟨finishLine cur, [], rfl, rfl, rfl⟩
  | it :: rest, cur => by
    unfold groupAux
    by_cases hc : it.page = cur.page ∧ |it.y - cur.y| < tol
    · rw [if_pos hc]
      exact groupAux_head tol rest _
    · rw [if_neg hc]
      exact ⟨finishLine cur, _, rfl, rfl, rfl⟩

/-- The per-fragment invariant of the grouping sweep: every fragment of every
emitted line shares the line's page and lies within `tol` of its anchor. -/
theorem groupAux_inv (tol : ℚ) (hpos : 0 < tol) :
    ∀ (rest : List Fragment) (cur : Line),
      (∀ f ∈ cur.items, f.page = cur.page ∧ |f.y - cur.y| < tol) →
      ∀ l ∈ groupAux tol cur rest, ∀ f ∈ l.items, f.page = l.page ∧ |f.y - l.y| < tol
  | [], cur => by
    intro hcur l hl f hf
    rcases List.mem_singleton.mp hl with rfl
    exact hcur f ((mem_sortByCmp xCmp f cur.items).mp hf)
  | it :: rest, cur => by
    intro hcur l hl f hf
    by_cases hc : it.page = cur.page ∧ |it.y - cur.y| < tol
    · rw [groupAux, if_pos hc] at hl
      refine groupAux_inv tol hpos rest _ ?_ l hl f hf
      intro g hg
      rcases List.mem_append.mp hg with h | h
      · exact hcur g h
      · rcases List.mem_singleton.mp h with rfl
        exact hc
    · rw [groupAux, if_neg hc] at hl
      rcases List.mem_cons.mp hl with rfl | hl'
      · exact hcur f ((mem_sortByCmp xCmp f cur.items).mp hf)
      · refine groupAux_inv tol hpos rest _ ?_ l hl' f hf
        intro g hg
        rcases List.mem_singleton.mp hg with rfl
        constructor
        · rfl
        · simpa using hpos

/-- The emitted lines are page-monotone provided the remaining items are
page-sorted and dominate the current page. -/
theorem groupAux_chain_page (tol : ℚ) :
    ∀ (rest : List Fragment) (cur : Line),
      (∀ f ∈ rest.head?, cur.page ≤ f.page) →
      List.Chain' (fun a b : Fragment => a.page ≤ b.page) rest →
      List.Chain' (fun a b : Line => a.page ≤ b.page) (groupAux tol cur rest)
  | [], cur => by
    intro _ _
    exact List.chain'_singleton _
  | it :: rest, cur => by
    intro hhead hchain
    rcases List.chain'_cons'.mp hchain with ⟨hit, hrest⟩
    by_cases hc : it.page = cur.page ∧ |it.y - cur.y| < tol
    · rw [groupAux, if_pos hc]
      refine groupAux_chain_page tol rest _ ?_ hrest
      intro f hf
      calc cur.page = it.page := hc.1.symm
        _ ≤ f.page := hit f hf
    · rw [groupAux, if_neg hc]
      refine List.chain'_cons'.mpr ⟨?_, ?_⟩
      · intro l hl
        obtain ⟨l₀, ls, heq, _, hpage⟩ := groupAux_head tol rest
          { y := it.y, page := it.page, items := [it] }
        rw [heq] at hl
        simp only [List.head?_cons, Option.mem_def, Option.some.injEq] at hl
        subst hl
        rw [hpage]
        exact hhead it (by simp)
      · exact groupAux_chain_page tol rest _ (fun f hf => hit f hf) hrest

/-- Consecutive emitted lines never satisfy the same-line test: they differ
in page or their anchors are at least `tol` apart. -/
theorem groupAux_chain_sep (tol : ℚ) :
    ∀ (rest : List Fragment) (cur : Line),
      List.Chain' (fun a b : Line => ¬(b.page = a.page ∧ |b.y - a.y| < tol))
        (groupAux tol cur rest)
  | [], cur => List.chain'_singleton _
  | it :: rest, cur => by
    by_cases hc : it.page = cur.page ∧ |it.y - cur.y| < tol
    · rw [groupAux, if_pos hc]
      exact groupAux_chain_sep tol rest _
    · rw [groupAux, if_neg hc]
      refine List.chain'_cons'.mpr ⟨?_, groupAux_chain_sep tol rest _⟩
      intro l hl
      obtain ⟨l₀, ls, heq, hy, hpage⟩ := groupAux_head tol rest
        { y := it.y, page := it.page, items := [it] }
      rw [heq] at hl
      simp only [List.head?_cons, Option.mem_def, Option.some.injEq] at hl
      subst hl
      rw [hy, hpage]
      exact hc

/-- The line tolerance is positive. -/
theorem lineTolerance_pos (bh : ℚ) : 0 < lineToleranceOf bh := by
  unfold lineToleranceOf jsMax
  split
  · linarith
  · linarith

/-- C7 (amended): after the Sequencer, every fragment of a line shares the
line's page and satisfies `|fragment.y - line.y| < lineTolerance`; lines are
emitted in nondecreasing page order, and consecutive lines fail the
same-line test (different page or anchors at least `lineTolerance` apart).
The stronger total ordering by `(page, y, x-of-first-fragment)` does not
hold; see the counterexample. -/
theorem sequencer_invariants (items : List Fragment) :
    (∀ l ∈ linesOf items, ∀ f ∈ l.items,
        f.page = l.page ∧ |f.y - l.y| < lineToleranceOf (bodyHeightOf items)) ∧
    List.Chain' (fun a b : Line => a.page ≤ b.page) (linesOf items) ∧
    List.Chain' (fun a b : Line =>
        ¬(b.page = a.page ∧ |b.y - a.y| < lineToleranceOf (bodyHeightOf items)))
      (linesOf items) := by
  have hpos := lineTolerance_pos (bodyHeightOf items)
  have hpw := pairwise_sortByCmp_page items
  unfold linesOf groupLines
  cases hs : sortByCmp itemCmp items with
  | nil => simp
  | cons f rest =>
    rw [hs] at hpw
    rcases List.pairwise_cons.mp hpw with ⟨hb, hl⟩
    refine ⟨?_, ?_, ?_⟩
    · refine groupAux_inv _ hpos rest _ ?_
      intro g hg
      rcases List.mem_singleton.mp hg with rfl
      exact ⟨rfl, by simpa using hpos⟩
    · refine groupAux_chain_page _ rest _ ?_ hl.chain'
      intro g hg
      exact hb g (List.mem_of_mem_head? hg)
    · exact groupAux_chain_sep _ rest _

/-- Witness for C7 at a concrete two-line document. -/
theorem sequencer_invariants_witness :
    (∀ l ∈ linesOf seqFrags, ∀ f ∈ l.items,
        f.page = l.page ∧ |f.y - l.y| < lineToleranceOf (bodyHeightOf seqFrags)) ∧
    List.Chain' (fun a b : Line => a.page ≤ b.page) (linesOf seqFrags) ∧
    List.Chain' (fun a b : Line =>
        ¬(b.page = a.page ∧ |b.y - a.y| < lineToleranceOf (bodyHeightOf seqFrags)))
      (linesOf seqFrags) :=
  sequencer_invariants seqFrags

/-- C7 counterexample: a same-page document whose two emitted lines appear
with strictly decreasing anchor y, so the lines are not totally ordered by
`(page, y, x-of-first-fragment)`. -/
theorem sequencer_order_counterexample :
    (linesOf invFrags).map Line.page = [1, 1] ∧
    (linesOf invFrags).map Line.y = [19/5, 0] ∧ ¬ ((19/5 : ℚ) ≤ 0) := by
  refine ⟨by decide, by decide, by norm_num⟩

/-- C4 (amended): the word-gap threshold follows the claimed case analysis
only above the three-sample floor: with at least 3 positive gap samples it is
the bimodal midpoint rule, else the `medianGap × 1.4` rule when the median is
positive, else the base threshold; with fewer than 3 positive gap samples it
is always the base threshold, even when `medianGap > 0`. -/
theorem wordGapThreshold_characterization (items : List Fragment) :
    ((sortedGapsOf items).length < 3 →
        wordGapThresholdOf items = baseThresholdOf items) ∧
    (3 ≤ (sortedGapsOf items).length →
      (medianGapOf items * (8/5) < p90GapOf items →
        wordGapThresholdOf items =
          jsMax (baseThresholdOf items) ((medianGapOf items + p90GapOf items) / 2)) ∧
      (¬ medianGapOf items * (8/5) < p90GapOf items → 0 < medianGapOf items →
        wordGapThresholdOf items =
          jsMax (baseThresholdOf items) (medianGapOf items * (7/5))) ∧
      (¬ medianGapOf items * (8/5) < p90GapOf items → ¬ 0 < medianGapOf items →
        wordGapThresholdOf items = baseThresholdOf items)) := by
  unfold wordGapThresholdOf
  refine ⟨fun h => ?_, fun h3 => ⟨fun hp => ?_, fun hp hm => ?_, fun hp hm => ?_⟩⟩
  · rw [if_neg (by omega)]
  · rw [if_pos h3, if_pos hp]
  · rw [if_pos h3, if_neg hp, if_pos hm]
  · rw [if_pos h3, if_neg hp, if_neg hm]

/-- C4 counterexample: a line with two positive gap samples and positive
median, whose threshold is the base threshold and not `max(base, median × 1.4)`
as the claim asserts for lines with fewer than three samples. -/
theorem wordGap_fewSamples_counterexample :
    (sortedGapsOf gapFrags).length = 2 ∧
    0 < medianGapOf gapFrags ∧
    wordGapThresholdOf gapFrags = baseThresholdOf gapFrags ∧
    wordGapThresholdOf gapFrags ≠
      jsMax (baseThresholdOf gapFrags) (medianGapOf gapFrags * (7/5)) := by
  refine ⟨by decide, by decide, by decide, by decide⟩

/-- Witness for C4 on a bimodal line: three gap samples trigger the midpoint
rule. -/
theorem wordGapThreshold_characterization_witness :
    3 ≤ (sortedGapsOf bimodalFrags).length ∧
    medianGapOf bimodalFrags * (8/5) < p90GapOf bimodalFrags ∧
    wordGapThresholdOf bimodalFrags =
      jsMax (baseThresholdOf bimodalFrags)
        ((medianGapOf bimodalFrags + p90GapOf bimodalFrags) / 2) :=
  ⟨by decide, by decide,
    ((wordGapThreshold_characterization bimodalFrags).2 (by decide)).1 (by decide)⟩

/-- C8: two adjacent CJK fragments receive no inserted space, at zero gap and
even at a gap far above the threshold, while two Latin fragments whose gap
(10) exceeds the computed threshold (3) receive exactly one space. -/
theorem cjk_latin_spacing :
    buildLineText [⟨"东", 0, 0, 12, 10, 1, false⟩, ⟨"京", 10, 0, 12, 10, 1, false⟩]
        = "东京" ∧
    buildLineText [⟨"东", 0, 0, 12, 10, 1, false⟩, ⟨"京", 50, 0, 12, 10, 1, false⟩]
        = "东京" ∧
    wordGapThresholdOf [⟨"New", 0, 0, 12, 15, 1, false⟩, ⟨"York", 25, 0, 12, 20, 1, false⟩]
        < 10 ∧
    buildLineText [⟨"New", 0, 0, 12, 15, 1, false⟩, ⟨"York", 25, 0, 12, 20, 1, false⟩]
        = "New York" := by
  refine ⟨by decide, by decide, by decide, by decide⟩

/-- C9: a document with zero extracted fragments and source name `scan.pdf`
yields exactly the title line `# scan`, a blank line and the no-text notice,
with no footer and no further pipeline stage applied. -/
theorem empty_document_placeholder :
    processDoc "scan.pdf" 0 [] [] =
      "# scan\n\n[No text detected. This may be an image-only PDF.]" := by decide

/-- C1 counterexample: the normalization replaces each digit separately, so
`"1"` and `"10"` do not normalize identically, and in the synthetic ten-page
document the bottom-band page-index line of page 10 survives in the
classifier output. -/
theorem pageMarker_counterexample :
    normalizePageMarker "1" ≠ normalizePageMarker "10" ∧
    (numFrag 10).str = "10" ∧
    "10" ∈ markdownLinesOf 10 docHeights docItems := by
  refine ⟨by decide, by decide, by decide⟩

/-- C1 (amended): in the synthetic ten-page document, `normalizePageMarker`
maps each digit to one placeholder (`"1" ↦ "#"`, `"10" ↦ "##"`), so pages 1-9
share one recurring cluster and their page-index lines are all removed, while
page 10's line survives; no mid-page body line is removed, also in the final
assembled output. -/
theorem pageMarker_suppression_amended :
    normalizePageMarker "1" = "#" ∧ normalizePageMarker "10" = "##" ∧
    markdownLinesOf 10 docHeights docItems =
      (List.range 9).flatMap (fun _ => ["Alpha beta", "Gamma delta", ""]) ++
        ["Alpha beta", "Gamma delta", "", "10"] ∧
    processDoc "doc10.pdf" 10 docHeights docItems =
      "# doc10\n\n" ++ String.join (List.replicate 10 "Alpha beta Gamma delta\n\n") ++
        "10\n\n---\n\n" ++ footerText := by
  refine ⟨by decide, by decide, by decide, by decide⟩

/-- The hyphen is not alphanumeric. -/
theorem alnum_dash_false : isAlnumChar '-' = false := by decide

/-- The newline is not alphanumeric. -/
theorem alnum_nl_false : isAlnumChar '\n' = false := by decide

/-- A break requires a dash in second position. -/
theorem startsBreak_second_not_dash (a b : Char) (w : List Char) (hb : b ≠ '-') :
    startsBreak (a :: b :: w) = false := by
  cases w with
  | nil => rfl
  | cons c u =>
    cases u with
    | nil => rfl
    | cons e u' => simp [startsBreak, hb]

/-- Unfolding equation of the merge at a list of length at least four. -/
theorem hyphenMerge_cons4 (a d n b : Char) (rest : List Char) :
    hyphenMerge (a :: d :: n :: b :: rest) =
      if startsBreak (a :: d :: n :: b :: rest) = true then a :: b :: hyphenMerge rest
      else a :: hyphenMerge (d :: n :: b :: rest) := rfl

/-- The merge preserves the first character of the text. -/
theorem hyphenMerge_head : ∀ l : List Char, (hyphenMerge l).head? = l.head?
  | [] => rfl
  | [_] => rfl
  | [_, _] => rfl
  | [_, _, _] => rfl
  | a :: d :: n :: b :: rest => by
    rw [hyphenMerge_cons4]
    by_cases hs : startsBreak (a :: d :: n :: b :: rest) = true
    · rw [if_pos hs]
      rfl
    · rw [if_neg hs]
      rfl

/-- If prepending `a` to `t` does not start a break, neither does prepending
`a` to the merged `t`: the merge preserves the first character of `t`, and it
changes the second character only by consuming a break, which leaves an
alphanumeric (hence non-dash) character there. -/
theorem startsBreak_cons_merge (a : Char) :
    ∀ t : List Char, startsBreak (a :: t) = false →
      startsBreak (a :: hyphenMerge t) = false
  | [], _ => rfl
  | [_], _ => rfl
  | [_, _], _ => rfl
  | [_, _, _], h => h
  | x :: p :: q :: y :: r, h => by
    by_cases hs : startsBreak (x :: p :: q :: y :: r) = true
    · have hx : isAlnumChar x = true := by
        simp only [startsBreak, Bool.and_eq_true, decide_eq_true_eq] at hs
        exact hs.1.2
      have hxne : x ≠ '-' := by
        intro hh
        rw [hh, alnum_dash_false] at hx
        exact Bool.false_ne_true hx
      rw [hyphenMerge_cons4, if_pos hs]
      exact startsBreak_second_not_dash a x _ hxne
    · rw [hyphenMerge_cons4, if_neg hs]
      cases hm : hyphenMerge (p :: q :: y :: r) with
      | nil => rfl
      | cons c u =>
        obtain rfl : p = c := by
          have hh := hyphenMerge_head (p :: q :: y :: r)
          rw [hm] at hh
          simpa using hh.symm
        cases u with
        | nil => rfl
        | cons e u' =>
          by_cases hxp : x = '-' ∧ p = '\n' ∧ isAlnumChar a = true
          · obtain ⟨hx, hp, ha⟩ := hxp
            have hq : isAlnumChar q = false := by
              simpa [startsBreak, hx, hp, ha] using h
            have hsb : startsBreak (p :: q :: y :: r) = false := by
              subst hp
              cases r with
              | nil => rfl
              | cons r0 r' => simp [startsBreak, alnum_nl_false]
            have hmt : hyphenMerge (p :: q :: y :: r) = p :: hyphenMerge (q :: y :: r) := by
              cases r with
              | nil => rfl
              | cons r0 r' =>
                rw [hyphenMerge_cons4, if_neg (by simp [hsb])]
            have he : e = q := by
              rw [hmt] at hm
              injection hm with _ hm2
              have hh := hyphenMerge_head (q :: y :: r)
              rw [hm2] at hh
              simpa using hh
            subst he
            simp [startsBreak, hx, hp, ha, hq]
          · push_neg at hxp
            by_cases h1 : x = '-'
            · by_cases h2 : p = '\n'
              · have h3 : isAlnumChar a = false := by
                  cases hval : isAlnumChar a
                  · rfl
                  · exact absurd hval (hxp h1 h2)
                simp [startsBreak, h3]
              · simp [startsBreak, h2]
            · simp [startsBreak, h1]

/-- A text with no break at all is a fixed point of the merge. -/
theorem hyphenMerge_of_no_break : ∀ l : List Char, hasBreak l = false → hyphenMerge l = l
  | [], _ => rfl
  | [_], _ => rfl
  | [_, _], _ => rfl
  | [_, _, _], _ => rfl
  | a :: d :: n :: b :: rest, h => by
    unfold hasBreak at h
    rcases Bool.or_eq_false_iff.mp h with ⟨h1, h2⟩
    rw [hyphenMerge_cons4, if_neg (by simp [h1])]
    have h2' : hasBreak (d :: n :: b :: rest) = false := h2
    rw [hyphenMerge_of_no_break (d :: n :: b :: rest) h2']

/-- Discarding the head of a text cannot create an overlapping break. -/
theorem hasOverlapBreak_tail {c : Char} {t : List Char}
    (h : hasOverlapBreak (c :: t) = false) : hasOverlapBreak t = false := by
  unfold hasOverlapBreak at h
  exact (Bool.or_eq_false_iff.mp h).2

/-- After one merge pass over a text without overlapping breaks, no break is
left: a new break could only surface where a consumed break's trailing
character met a following break. -/
theorem no_break_after_merge : ∀ l : List Char, hasOverlapBreak l = false →
    hasBreak (hyphenMerge l) = false
  | [], _ => rfl
  | [_], _ => rfl
  | [_, _], _ => rfl
  | [_, _, _], _ => rfl
  | a :: d :: n :: b :: rest, h => by
    by_cases hs : startsBreak (a :: d :: n :: b :: rest) = true
    · rw [hyphenMerge_cons4, if_pos hs]
      have hb : isAlnumChar b = true := by
        simp only [startsBreak, Bool.and_eq_true, decide_eq_true_eq] at hs
        exact hs.2
      have hbne : b ≠ '-' := by
        intro hh
        rw [hh, alnum_dash_false] at hb
        exact Bool.false_ne_true hb
      have hnext : startsBreak (b :: rest) = false := by
        unfold hasOverlapBreak at h
        rcases Bool.or_eq_false_iff.mp h with ⟨h1, _⟩
        rcases Bool.and_eq_false_iff.mp h1 with h1' | h1'
        · exact absurd hs (by simp [h1'])
        · exact h1'
      have hrest : hasOverlapBreak rest = false :=
        hasOverlapBreak_tail (hasOverlapBreak_tail (hasOverlapBreak_tail
          (hasOverlapBreak_tail h)))
      have g1 : startsBreak (a :: b :: hyphenMerge rest) = false :=
        startsBreak_second_not_dash a b _ hbne
      have g2 : startsBreak (b :: hyphenMerge rest) = false :=
        startsBreak_cons_merge b rest hnext
      have g3 : hasBreak (hyphenMerge rest) = false := no_break_after_merge rest hrest
      simp [hasBreak, g1, g2, g3]
    · rw [hyphenMerge_cons4, if_neg hs]
      have h' : startsBreak (a :: d :: n :: b :: rest) = false :=
        Bool.eq_false_iff.mpr hs
      have g1 : startsBreak (a :: hyphenMerge (d :: n :: b :: rest)) = false :=
        startsBreak_cons_merge a (d :: n :: b :: rest) h'
      have g2 : hasBreak (hyphenMerge (d :: n :: b :: rest)) = false :=
        no_break_after_merge (d :: n :: b :: rest) (hasOverlapBreak_tail h)
      simp [hasBreak, g1, g2]

/-- C3 (amended): the hyphenation merge is idempotent on every text without
two overlapping hyphen breaks (no `x-\ny-\nz` with `x`, `y`, `z` all
letters/digits); on such texts one pass removes every break. -/
theorem hyphenMerge_idempotent_no_overlap (l : List Char)
    (h : hasOverlapBreak l = false) :
    hyphenMerge (hyphenMerge l) = hyphenMerge l :=
  hyphenMerge_of_no_break _ (no_break_after_merge l h)

/-- Witness for C3 on `exam-\nple`: no overlapping break, and merging twice
equals merging once. -/
theorem hyphenMerge_idempotent_witness :
    hasOverlapBreak "exam-\nple".data = false ∧
    hyphenMerge (hyphenMerge "exam-\nple".data) = hyphenMerge "exam-\nple".data :=
  ⟨by decide, hyphenMerge_idempotent_no_overlap "exam-\nple".data (by decide)⟩

/-- C3 counterexample: on `a-\na-\nb` (two overlapping breaks) one pass gives
`aa-\nb` — the scanner resumes after the consumed trailing character — and a
second pass still changes the text, to `aab`. -/
theorem hyphenMerge_not_idempotent :
    hyphenMergeStr "a-\na-\nb" = "aa-\nb" ∧
    hyphenMergeStr "aa-\nb" = "aab" ∧
    hyphenMergeStr (hyphenMergeStr "a-\na-\nb") ≠ hyphenMergeStr "a-\na-\nb" := by
  refine ⟨by decide, by decide, by decide⟩

/-- The first six disjuncts of a failed flush, as separate facts. -/
theorem shouldFlush_false_parts {buffer current : String}
    (h : shouldFlushLine buffer current = false) :
    isBlankStr buffer = false ∧ isBlankStr current = false ∧
    isHeading current = false ∧ isHeading buffer = false ∧
    mergeIsList current = false ∧ mergeIsList buffer = false := by
  unfold shouldFlushLine at h
  simp only [Bool.or_eq_false_iff, and_assoc] at h
  exact ⟨h.1, h.2.1, h.2.2.1, h.2.2.2.1, h.2.2.2.2.1, h.2.2.2.2.2.1⟩

/-- The merge loop equals the loop with the plain single-space join: when the
join branch runs the buffer is never a list item, so the CJK-aware
list-continuation join is unreachable. -/
theorem mergeAux_eq_simple : ∀ (rest : List String) (buffer : String),
    mergeAux buffer rest = mergeSimpleAux buffer rest
  | [], _ => rfl
  | current :: rest, buffer => by
    unfold mergeAux mergeSimpleAux
    by_cases hf : shouldFlushLine buffer current = true
    · rw [if_pos hf, if_pos hf, mergeAux_eq_simple rest current]
    · have hf' : shouldFlushLine buffer current = false := Bool.eq_false_iff.mpr hf
      have hnl : mergeIsList buffer = false := (shouldFlush_false_parts hf').2.2.2.2.2
      rw [if_neg hf, if_neg hf]
      rw [show joinWrapped buffer current = buffer ++ " " ++ current from by
        unfold joinWrapped
        rw [if_neg (by simp [hnl])]]
      exact mergeAux_eq_simple rest _

/-- C5 (amended): the hard-wrap merge never joins a list-item buffer with a
following line — whenever the buffer is a list item the flush fires first, so
the source's CJK-aware list-continuation branch is dead — and every join that
does occur inserts exactly one space and keeps the continuation untrimmed. -/
theorem mergeWrapped_no_list_continuation (lines : List String) :
    mergeLines lines = mergeSimpleLines lines := by
  cases lines with
  | nil => rfl
  | cons b rest => exact mergeAux_eq_simple rest b

/-- C5 counterexample: a list-item buffer `- 東` followed by the non-list,
non-heading continuation `京` is flushed, not joined, so no input exercises
the list-continuation join the claim describes. -/
theorem list_continuation_counterexample :
    mergeIsList "- 東" = true ∧ mergeIsList "京" = false ∧
    isHeading "京" = false ∧ isBlankStr "京" = false ∧
    mergeLines ["- 東", "京"] = ["- 東", "京"] := by
  refine ⟨by decide, by decide, by decide, by decide, by decide⟩

/-- Appending one line to a non-empty run joins it into the run's buffer. -/
theorem joinRun_append (run : List String) (c : String) (h : run ≠ []) :
    joinRun (run ++ [c]) = joinWrapped (joinRun run) c := by
  cases run with
  | nil => exact absurd rfl h
  | cons x xs =>
    show (xs ++ [c]).foldl joinWrapped x = joinWrapped (xs.foldl joinWrapped x) c
    rw [List.foldl_append]
    rfl

/-- Unfolding equation of the run emitter at a cons. -/
theorem emitRuns_cons (r : List String) (rs : List (List String)) :
    emitRuns (r :: rs) =
      if rs.isEmpty then (if joinRun r = "" then [] else [joinRun r])
      else joinRun r :: emitRuns rs := rfl

/-- The run decomposition always produces at least one run. -/
theorem runsAux_ne_nil : ∀ (rest run : List String), runsAux run rest ≠ []
  | [], run => by simp [runsAux]
  | current :: rest, run => by
    unfold runsAux
    by_cases hf : shouldFlushLine (joinRun run) current = true
    · rw [if_pos hf]
      simp
    · rw [if_neg hf]
      exact runsAux_ne_nil rest _

/-- The merge loop emits exactly the buffers of the run decomposition. -/
theorem mergeAux_eq_emitRuns : ∀ (rest run : List String), run ≠ [] →
    mergeAux (joinRun run) rest = emitRuns (runsAux run rest)
  | [], run, _ => by
    simp [mergeAux, runsAux, emitRuns]
  | current :: rest, run, h => by
    unfold mergeAux runsAux
    by_cases hf : shouldFlushLine (joinRun run) current = true
    · rw [if_pos hf, if_pos hf]
      rw [emitRuns_cons,
        if_neg (by simpa [List.isEmpty_iff] using runsAux_ne_nil rest [current])]
      rw [show mergeAux current rest = mergeAux (joinRun [current]) rest from rfl]
      rw [mergeAux_eq_emitRuns rest [current] (by simp)]
    · rw [if_neg hf, if_neg hf]
      rw [show joinWrapped (joinRun run) current = joinRun (run ++ [current]) from
        (joinRun_append run current h).symm]
      exact mergeAux_eq_emitRuns rest (run ++ [current]) (by simp)

/-- The runs are a partition of the input lines into consecutive segments. -/
theorem runsAux_flatten : ∀ (rest run : List String),
    (runsAux run rest).flatten = run ++ rest
  | [], run => by simp [runsAux]
  | current :: rest, run => by
    unfold runsAux
    by_cases hf : shouldFlushLine (joinRun run) current = true
    · rw [if_pos hf]
      show run ++ (runsAux [current] rest).flatten = run ++ current :: rest
      rw [runsAux_flatten rest [current]]
      rfl
    · rw [if_neg hf]
      rw [runsAux_flatten rest (run ++ [current])]
      simp

/-- Every line of a run of length at least two is non-blank, not a heading
and not a list item: a line enters an existing run only when the flush test
fails, and a run's first line is checked when its second joins. -/
theorem runsAux_plain : ∀ (rest run : List String),
    (2 ≤ run.length → ∀ s ∈ run,
      isBlankStr s = false ∧ isHeading s = false ∧ mergeIsList s = false) →
    ∀ r ∈ runsAux run rest, 2 ≤ r.length → ∀ s ∈ r,
      isBlankStr s = false ∧ isHeading s = false ∧ mergeIsList s = false
  | [], run, hrun => by
    intro r hr
    rcases List.mem_singleton.mp hr with rfl
    exact hrun
  | current :: rest, run, hrun => by
    intro r hr
    unfold runsAux at hr
    by_cases hf : shouldFlushLine (joinRun run) current = true
    · rw [if_pos hf] at hr
      rcases List.mem_cons.mp hr with rfl | hr'
      · exact hrun
      · exact runsAux_plain rest [current] (fun h2 => absurd h2 (by simp)) r hr'
    · rw [if_neg hf] at hr
      have hf' : shouldFlushLine (joinRun run) current = false := Bool.eq_false_iff.mpr hf
      obtain ⟨hb, hc, hhc, hhb, hlc, hlb⟩ := shouldFlush_false_parts hf'
      refine runsAux_plain rest (run ++ [current]) ?_ r hr
      intro _ s hs
      rcases List.mem_append.mp hs with hs' | hs'
      · cases run with
        | nil => cases hs'
        | cons b run' =>
          cases run' with
          | nil =>
            rcases List.mem_singleton.mp hs' with rfl
            exact ⟨hb, hhb, hlb⟩
          | cons b2 run'' =>
            refine hrun ?_ s hs'
            simp only [List.length_cons]
            omega
      · rcases List.mem_singleton.mp hs' with rfl
        exact ⟨hc, hhc, hlc⟩

/-- C6: the hard-wrap merge output is the per-run join of a consecutive
partition of the input lines, and every run that joins two or more lines
consists only of lines that are non-blank, non-heading and non-list — the
merge never joins across a blank, heading or list-item line in either
direction. -/
theorem mergeWrapped_no_join_across_special (lines : List String) :
    (mergeRuns lines).flatten = lines ∧
    mergeLines lines = emitRuns (mergeRuns lines) ∧
    ∀ r ∈ mergeRuns lines, 2 ≤ r.length → ∀ s ∈ r,
      isBlankStr s = false ∧ isHeading s = false ∧ mergeIsList s = false := by
  cases lines with
  | nil =>
    refine ⟨rfl, rfl, ?_⟩
    intro r hr
    cases hr
  | cons b rest =>
    refine ⟨?_, ?_, ?_⟩
    · show (runsAux [b] rest).flatten = b :: rest
      rw [runsAux_flatten rest [b]]
      rfl
    · exact mergeAux_eq_emitRuns rest [b] (by simp)
    · exact runsAux_plain rest [b] (fun h2 => absurd h2 (by simp))

/-- Witness for C6 on a concrete line list with a join, a blank line, a
heading, a list item, and a hard stop. -/
theorem mergeWrapped_no_join_witness :
    (mergeRuns c6Lines).flatten = c6Lines ∧
    mergeLines c6Lines = emitRuns (mergeRuns c6Lines) ∧
    ∀ r ∈ mergeRuns c6Lines, 2 ≤ r.length → ∀ s ∈ r,
      isBlankStr s = false ∧ isHeading s = false ∧ mergeIsList s = false :=
  mergeWrapped_no_join_across_special c6Lines

end Pdf2Txt
